/-
Verification of the column-profiling script
`src/PortfolioLens/scripts/analyze_excel_format.py`.

The script loads an Excel workbook, and for each sheet and each column
prints: null / non-null counts, distinct-value samples, regex pattern
matches (via pandas `str.contains`, i.e. `re.search` semantics), a
numeric-coercion heuristic (`pd.to_numeric` after stripping commas and
double quotes), a leading/trailing-whitespace check, the list of empty
columns and the deduplicated list of duplicated column names.

We embed the script shallowly: cell values are modelled by their string
form (`astype(str)` is the only way the script looks at values of text
columns), a column is a list of optional cells plus its pandas dtype
flag, and a sheet is a list of columns together with its row count.
Character classes are modelled over ASCII (the script's data is ASCII;
Python's `\d`, `\w`, `\s` additionally match some non-ASCII characters,
which never occurs in the claims considered here).
-/
import Mathlib

set_option autoImplicit false

namespace AnalyzeExcel

/-! ### Character classes used by the script's regexes -/

/-- `\d` (ASCII). -/
def isDigitCh (c : Char) : Bool := c.isDigit

/-- The date separator class (slash or hyphen). -/
def isSepCh (c : Char) : Bool := c = '/' || c = '-'

/-- The class `[\d,]`. -/
def isDigitCommaCh (c : Char) : Bool := c.isDigit || c = ','

/-- The class `[\d,.]`. -/
def isDigitCommaDotCh (c : Char) : Bool := c.isDigit || c = ',' || c = '.'

/-- A literal `.`. -/
def isDotCh (c : Char) : Bool := c = '.'

/-- A literal `$`. -/
def isDollarCh (c : Char) : Bool := c = '$'

/-- A literal `%`. -/
def isPercentCh (c : Char) : Bool := c = '%'

/-- A literal `"`. -/
def isQuoteCh (c : Char) : Bool := c = '"'

/-- `\w` (ASCII): letters, digits, underscore. -/
def isWordCh (c : Char) : Bool := c.isAlphanum || c = '_'

/-- `\s` (ASCII): the whitespace characters recognised by Python. -/
def isSpaceCh (c : Char) : Bool :=
  c = ' ' || c = '\t' || c = '\n' || c = '\r' || c = '\x0b' || c = '\x0c'

/-- The negated class `[^\w\s\-\.]` of the `Special chars` pattern. -/
def isSpecialCh (c : Char) : Bool :=
  !(isWordCh c || isSpaceCh c || c = '-' || c = '.')

/-! ### A small matcher for the script's regexes

Each of the six regexes in the script's `patterns` dict is a plain
sequence of bounded repetitions of character classes, so we represent a
regex as a list of `PatElem` (class, minimum count, optional maximum
count) and implement `re.search` (which is what pandas `str.contains`
calls) as: some suffix of the string has a prefix matching the sequence.
-/

/-- One regex element: a character class repeated between `lo` and `hi`
times (`hi = none` meaning unbounded, as in `+` or `*`). -/
structure PatElem where
  cls : Char → Bool
  lo : Nat
  hi : Option Nat

/-- Consume exactly `n` characters satisfying `cls`; return the rest. -/
def consumeCls (cls : Char → Bool) : Nat → List Char → Option (List Char)
  | 0, s => some s
  | _ + 1, [] => none
  | n + 1, c :: s => if cls c then consumeCls cls n s else none

/-- Largest repetition count worth trying for an element on a string of
length `len`. -/
def maxReps (hi : Option Nat) (len : Nat) : Nat :=
  match hi with
  | some h => min h len
  | none => len

/-- All remainders of the string after the element consumed an allowed
number of its characters. -/
def elemRemainders (e : PatElem) (s : List Char) : List (List Char) :=
  (List.range (maxReps e.hi s.length + 1)).filterMap fun n =>
    if e.lo ≤ n then consumeCls e.cls n s else none

/-- Does some way of choosing repetition counts let the whole sequence
match a prefix of `s`? -/
def matchSeqFrom : List PatElem → List Char → Bool
  | [], _ => true
  | e :: es, s => (elemRemainders e s).any (matchSeqFrom es)

/-- Like `matchSeqFrom`, but the sequence must consume the whole string
(used for the one pattern anchored with `^...$`). -/
def matchSeqExact : List PatElem → List Char → Bool
  | [], s => s.isEmpty
  | e :: es, s => (elemRemainders e s).any (matchSeqExact es)

/-- `re.search`: some suffix of the string has a matching prefix. -/
def reSearch (p : List PatElem) (s : List Char) : Bool :=
  s.tails.any (matchSeqFrom p)

/-! ### The six patterns of the `patterns` dict (source lines 59-66) -/

/-- `Number with commas`: `[\d,]+\.?\d*`. -/
def numCommasElems : List PatElem :=
  [⟨isDigitCommaCh, 1, none⟩, ⟨isDotCh, 0, some 1⟩, ⟨isDigitCh, 0, none⟩]

/-- `Currency`: `\$[\d,]+\.?\d*`, i.e. a `$` followed by the
`Number with commas` pattern. -/
def currencyElems : List PatElem :=
  ⟨isDollarCh, 1, some 1⟩ :: numCommasElems

/-- `Date-like`: `\d{1,2}` sep `\d{1,2}` sep `\d{2,4}`, where sep is the
class of slash and hyphen. -/
def dateElems : List PatElem :=
  [⟨isDigitCh, 1, some 2⟩, ⟨isSepCh, 1, some 1⟩, ⟨isDigitCh, 1, some 2⟩,
   ⟨isSepCh, 1, some 1⟩, ⟨isDigitCh, 2, some 4⟩]

/-- `Percentage`: `\d+\.?\d*%`. -/
def percentElems : List PatElem :=
  [⟨isDigitCh, 1, none⟩, ⟨isDotCh, 0, some 1⟩, ⟨isDigitCh, 0, none⟩,
   ⟨isPercentCh, 1, some 1⟩]

/-- `Number in quotes` body: `"[\d,.]+"` (the pattern itself is anchored
`^...$`). -/
def numQuotesElems : List PatElem :=
  [⟨isQuoteCh, 1, some 1⟩, ⟨isDigitCommaDotCh, 1, none⟩, ⟨isQuoteCh, 1, some 1⟩]

/-- `Special chars`: `[^\w\s\-\.]`. -/
def specialElems : List PatElem :=
  [⟨isSpecialCh, 1, some 1⟩]

/-- The names of the six patterns, in the dict's insertion order. -/
inductive PatKind
  | dateLike | numCommas | numQuotes | currency | percentage | specialChars
deriving DecidableEq, Repr

/-- Iteration order of the `patterns` dict. -/
def patternOrder : List PatKind :=
  [.dateLike, .numCommas, .numQuotes, .currency, .percentage, .specialChars]

/-- `str.contains(pattern)` for a single value: `re.search` for the five
unanchored patterns, a full match for the `^`/`$`-anchored one. -/
def patMatches (k : PatKind) (s : String) : Bool :=
  match k with
  | .dateLike => reSearch dateElems s.data
  | .numCommas => reSearch numCommasElems s.data
  | .numQuotes => matchSeqExact numQuotesElems s.data
  | .currency => reSearch currencyElems s.data
  | .percentage => reSearch percentElems s.data
  | .specialChars => reSearch specialElems s.data

/-! ### The numeric-coercion heuristic (source lines 79-86)

`pd.to_numeric(values.astype(str).str.replace(',', '').str.replace('"', ''),
errors='coerce')` parses each comma/quote-stripped string as an optionally
signed decimal number with optional fractional part and exponent,
surrounded by optional whitespace; a string that does not parse becomes
`NaN` and is not counted by `.notna().sum()`.
-/

/-- `.str.replace(',', '').str.replace('"', '')`: remove every comma and
double-quote character. -/
def stripCQ (s : String) : String :=
  ⟨s.data.filter fun c => !(c = ',' || c = '"')⟩

/-- Drop one optional leading sign. -/
def dropSign (l : List Char) : List Char :=
  match l with
  | [] => []
  | c :: r => if c = '+' || c = '-' then r else c :: r

/-- Split a maximal run of leading digits off the string. -/
def splitDigits (l : List Char) : List Char × List Char :=
  (l.takeWhile isDigitCh, l.dropWhile isDigitCh)

/-- Consume the mantissa `\d+(\.\d*)? | \.\d+`; `none` when there is no
digit at all. -/
def parseMantissa (l : List Char) : Option (List Char) :=
  let p := splitDigits l
  match p.2 with
  | '.' :: r2 =>
    let q := splitDigits r2
    if p.1.isEmpty && q.1.isEmpty then none else some q.2
  | _ => if p.1.isEmpty then none else some p.2

/-- Consume an optional exponent `[eE][+-]?\d+`. -/
def parseExp (l : List Char) : Option (List Char) :=
  match l with
  | [] => some []
  | c :: r =>
    if c = 'e' || c = 'E' then
      let r' := dropSign r
      let q := splitDigits r'
      if q.1.isEmpty then none else some q.2
    else some l

/-- Model of `pd.to_numeric(·, errors='coerce')` on one string value:
`true` iff the coercion yields a (non-NaN) number. -/
def toNumericOk (s : String) : Bool :=
  let l := s.data.dropWhile isSpaceCh
  let l := dropSign l
  match parseMantissa l with
  | none => false
  | some r =>
    match parseExp r with
    | none => false
    | some r2 => (r2.dropWhile isSpaceCh).isEmpty

/-- The number of values of a text column the heuristic can coerce:
`pd.to_numeric(...).notna().sum()` over the comma/quote-stripped string
forms. -/
def convertibleCount (vals : List String) : Nat :=
  ((vals.map fun v => toNumericOk (stripCQ v)).filter id).length

/-! ### The whitespace check (source lines 89-92) -/

/-- Python `str.strip()`: remove leading and trailing whitespace. -/
def pyStrip (s : String) : String :=
  ⟨((s.data.dropWhile isSpaceCh).reverse.dropWhile isSpaceCh).reverse⟩

/-- `(values.astype(str).str.strip() != values.astype(str)).sum()`:
how many values differ from their stripped form. -/
def withSpacesCount (vals : List String) : Nat :=
  (((vals.map pyStrip).zip vals).filter fun p => p.1 ≠ p.2).length

/-! ### Distinct values in order of first appearance -/

/-- pandas `Series.unique()`: distinct values in order of first
appearance. -/
def uniqueInOrder : List String → List String
  | [] => []
  | x :: xs => x :: uniqueInOrder (xs.filter fun y => y ≠ x)
termination_by l => l.length
decreasing_by
  simp only [List.length_cons]
  exact Nat.lt_succ_of_le (List.length_filter_le _ _)

/-! ### Data model

A cell of a loaded sheet is either null (`None`/`NaN`) or a value; the
script inspects values of text columns only through their string form
(`astype(str)`, `str(col)`, printing), so a value is modelled by that
string form.  A column carries its pandas dtype only through the one
test the script makes, `df[col].dtype == 'object'`.
-/

/-- One column of a loaded sheet. -/
structure Column where
  name : String
  /-- `df[col].dtype == 'object'`. -/
  isObject : Bool
  cells : List (Option String)
deriving DecidableEq, Repr

/-- One sheet read by `pd.read_excel`: its name, its row count
(`len(df)`), and its columns.  In a well-formed frame every column has
`nrows` cells; theorems that need this take it as a hypothesis. -/
structure Sheet where
  name : String
  nrows : Nat
  cols : List Column
deriving DecidableEq, Repr

/-- `df[col].dropna()`: the non-null values of a column, in row order. -/
def nonNullValues (c : Column) : List String :=
  c.cells.filterMap id

/-! ### Per-column analysis (source lines 38-92) -/

/-- Count of values of a text column matching one pattern:
`non_null_values.astype(str).str.contains(pattern, na=False).sum()`. -/
def patternCount (k : PatKind) (vals : List String) : Nat :=
  (vals.filter (patMatches k)).length

/-- The examples printed for one pattern:
`non_null_values[...str.contains(pattern, na=False)].head(3)`. -/
def patternExamples (k : PatKind) (vals : List String) : List String :=
  (vals.filter (patMatches k)).take 3

/-- One printed pattern line: pattern name, match count, examples. -/
structure PatternEntry where
  kind : PatKind
  count : Nat
  examples : List String
deriving DecidableEq, Repr

/-- The pattern lines printed for a text column: one entry per pattern of
the dict, in dict order, kept only when its match count is positive. -/
def patternReport (vals : List String) : List PatternEntry :=
  patternOrder.filterMap fun k =>
    let m := patternCount k vals
    if 0 < m then some ⟨k, m, patternExamples k vals⟩ else none

/-- The detailed analysis printed for a column with at least one non-null
value (the body of the `if len(non_null_values) > 0` block, together with
the trailing whitespace check, which is guarded the same way). -/
structure ColDetails where
  /-- `unique_values = non_null_values.unique()`. -/
  uniqueVals : List String
  /-- `unique_values[:min(5, len(unique_values))]`. -/
  sampleVals : List String
  /-- Pattern lines; empty for non-text columns. -/
  patterns : List PatternEntry
  /-- `convertible_count`; `none` for non-text columns. -/
  convertible : Option Nat
  /-- `with_spaces.sum()`; `none` for non-text columns. -/
  withSpaces : Option Nat
deriving DecidableEq, Repr

/-- Everything the script prints about one column. -/
structure ColumnReport where
  name : String
  /-- `df[col].count()`. -/
  nonNull : Nat
  /-- `len(df)`, printed next to the non-null count. -/
  total : Nat
  /-- `df[col].isnull().sum()`. -/
  nulls : Nat
  /-- `some` exactly when `len(non_null_values) > 0`. -/
  details : Option ColDetails
deriving DecidableEq, Repr

/-- The per-column analysis of the loop body at source lines 38-92. -/
def analyzeColumn (nrows : Nat) (c : Column) : ColumnReport :=
  let nnv := nonNullValues c
  { name := c.name
    nonNull := c.cells.countP (·.isSome)
    total := nrows
    nulls := c.cells.countP (·.isNone)
    details :=
      if 0 < nnv.length then
        let u := uniqueInOrder nnv
        some
          { uniqueVals := u
            sampleVals := u.take (min 5 u.length)
            patterns := if c.isObject then patternReport nnv else []
            convertible := if c.isObject then some (convertibleCount nnv) else none
            withSpaces := if c.isObject then some (withSpacesCount nnv) else none }
      else none }

/-! ### Per-sheet analysis (source lines 20-114) -/

/-- `re.match(r'^\d', str(col))`: the column name starts with a digit. -/
def startsWithDigit (s : String) : Bool :=
  match s.data with
  | [] => false
  | c :: _ => isDigitCh c

/-- Everything the script prints about one sheet (the first-3-rows data
preview is raw echoing of the frame and carries no logic; it is not
modelled). -/
structure SheetReport where
  name : String
  nrows : Nat
  ncols : Nat
  /-- The column listing, each name with its starts-with-number flag. -/
  colNames : List (String × Bool)
  colReports : List ColumnReport
  /-- `[col for col in df.columns if df[col].isnull().all()]`. -/
  emptyCols : List String
  /-- `set(duplicate_cols)`: the duplicated names, deduplicated.  A
  Python `set` iterates in an unspecified order; only the multiplicity
  of each name (one) is meaningful, and we model the set by
  first-appearance deduplication. -/
  duplicateCols : List String
deriving DecidableEq, Repr

/-- The per-sheet analysis of the loop body at source lines 20-114. -/
def analyzeSheet (s : Sheet) : SheetReport :=
  let names := s.cols.map Column.name
  { name := s.name
    nrows := s.nrows
    ncols := s.cols.length
    colNames := names.map fun n => (n, startsWithDigit n)
    colReports := s.cols.map (analyzeColumn s.nrows)
    emptyCols := (s.cols.filter fun c => c.cells.all (·.isNone)).map Column.name
    duplicateCols := uniqueInOrder (names.filter fun n => 1 < names.count n) }

/-! ### Top level (source lines 8-116)

`openpyxl.load_workbook` and each `pd.read_excel` call can fail; the
script wraps neither in a handler, so any such failure propagates to the
caller.  We model the loaded input as `Except`-values: a workbook that
failed to open, or a list of per-sheet read results. -/

/-- Analyze the sheets in order; a sheet whose read failed aborts the
whole run with that error (nothing catches it). -/
def analyzeSheets : List (Except String Sheet) → Except String (List SheetReport)
  | [] => .ok []
  | .error e :: _ => .error e
  | .ok s :: rest => (analyzeSheets rest).map (analyzeSheet s :: ·)

/-- `analyze_excel_file`: a workbook that failed to open propagates its
error; otherwise every sheet is read and analyzed in order. -/
def analyzeExcelFile :
    Except String (List (Except String Sheet)) → Except String (List SheetReport)
  | .error e => .error e
  | .ok sheets => analyzeSheets sheets

/-- Index of the first occurrence of `a` in `l` (length of `l` when `a`
does not occur); used to state "order of first appearance". -/
def firstIdx : List String → String → Nat
  | [], _ => 0
  | x :: xs, a => if x = a then 0 else firstIdx xs a + 1

/-! ### Spec-side predicates for the pattern claims

These restate, in elementary terms, what a `re.search` hit of the
currency / percentage / date-like regex implies about the raw string;
they are defined independently of the matcher so the theorems relating
them to `reSearch` have content. -/

/-- The string contains a `$` immediately followed by a digit or a
comma. -/
def containsDollarNum : List Char → Bool
  | a :: b :: rest => (a = '$' && isDigitCommaCh b) || containsDollarNum (b :: rest)
  | _ => false

/-- The string contains a `%` immediately preceded by a digit, or by a
`.` that is itself immediately preceded by a digit. -/
def percentAfterNum : List Char → Bool
  | a :: b :: rest =>
      (isDigitCh a && b = '%') ||
      (isDigitCh a && b = '.' && rest.head? = some '%') ||
      percentAfterNum (b :: rest)
  | _ => false

/-- A string of the shape 1-2 digits, separator, 1-2 digits, separator,
2-4 digits (the language of the date-like regex). -/
def DateShape (m : List Char) : Prop :=
  ∃ (d1 d2 d3 : List Char) (s1 s2 : Char),
    m = d1 ++ s1 :: d2 ++ s2 :: d3 ∧
    (∀ c ∈ d1, isDigitCh c = true) ∧ 1 ≤ d1.length ∧ d1.length ≤ 2 ∧
    isSepCh s1 = true ∧
    (∀ c ∈ d2, isDigitCh c = true) ∧ 1 ≤ d2.length ∧ d2.length ≤ 2 ∧
    isSepCh s2 = true ∧
    (∀ c ∈ d3, isDigitCh c = true) ∧ 2 ≤ d3.length ∧ d3.length ≤ 4

/-- The characters that can occur in a string `pd.to_numeric` accepts:
whitespace, signs, the decimal point, an exponent marker, digits. -/
def isNumTokenCh (c : Char) : Bool :=
  isSpaceCh c || c = '+' || c = '-' || c = '.' || c = 'e' || c = 'E' || isDigitCh c

/-! ## Helper lemmas -/

theorem countP_isSome_add_isNone (l : List (Option String)) :
    l.countP (·.isSome) + l.countP (·.isNone) = l.length := by
  induction l with
  | nil => rfl
  | cons x xs ih =>
    cases x <;> simp [List.countP_cons] <;> omega

theorem uniqueInOrder_nil : uniqueInOrder [] = [] := by
  simp [uniqueInOrder]

theorem uniqueInOrder_cons (x : String) (xs : List String) :
    uniqueInOrder (x :: xs) = x :: uniqueInOrder (xs.filter fun y => y ≠ x) := by
  rw [uniqueInOrder]

theorem mem_uniqueInOrder (l : List String) (a : String) :
    a ∈ uniqueInOrder l ↔ a ∈ l := by
  induction l using uniqueInOrder.induct with
  | case1 => simp [uniqueInOrder_nil]
  | case2 x xs ih =>
    rw [uniqueInOrder_cons]
    simp only [List.mem_cons, ih, List.mem_filter, decide_eq_true_eq]
    constructor
    · rintro (rfl | ⟨h, _⟩)
      · exact .inl rfl
      · exact .inr h
    · rintro (rfl | h)
      · exact .inl rfl
      · by_cases hx : a = x
        · exact .inl hx
        · exact .inr ⟨h, hx⟩

theorem nodup_uniqueInOrder (l : List String) : (uniqueInOrder l).Nodup := by
  induction l using uniqueInOrder.induct with
  | case1 => simp [uniqueInOrder_nil]
  | case2 x xs ih =>
    rw [uniqueInOrder_cons]
    refine List.nodup_cons.2 ⟨fun hx => ?_, ih⟩
    have := (mem_uniqueInOrder _ _).1 hx
    simp [List.mem_filter] at this

theorem count_uniqueInOrder_of_mem {l : List String} {a : String} (h : a ∈ l) :
    (uniqueInOrder l).count a = 1 :=
  List.count_eq_one_of_mem (nodup_uniqueInOrder l) ((mem_uniqueInOrder l a).2 h)

theorem convertibleCount_eq_countP (vals : List String) :
    convertibleCount vals = vals.countP fun v => toNumericOk (stripCQ v) := by
  induction vals with
  | nil => rfl
  | cons v vs ih =>
    simp only [convertibleCount, List.map_cons, List.filter_cons, List.countP_cons] at *
    by_cases h : toNumericOk (stripCQ v) <;> simp [h, ih]

theorem withSpacesCount_eq_countP (vals : List String) :
    withSpacesCount vals = vals.countP fun v => pyStrip v ≠ v := by
  induction vals with
  | nil => rfl
  | cons v vs ih =>
    have ih' := ih
    simp only [withSpacesCount] at ih'
    simp only [withSpacesCount, List.map_cons, List.zip_cons_cons, List.filter_cons,
      List.countP_cons]
    by_cases h : pyStrip v = v
    · simpa [h] using ih'
    · simpa [h] using ih'

/-! ## Claims -/

/-- C2: for every sheet (whose columns all have the sheet's row count, as
`pd.read_excel` guarantees) and every column report in it, the non-null
count plus the null count equals the number of rows of the sheet. -/
theorem claim_nonNull_add_null_eq_nrows (sh : Sheet)
    (hrect : ∀ c ∈ sh.cols, c.cells.length = sh.nrows) :
    ∀ rep ∈ (analyzeSheet sh).colReports, rep.nonNull + rep.nulls = sh.nrows := by
  intro rep hrep
  simp only [analyzeSheet, List.mem_map] at hrep
  obtain ⟨c, hc, rfl⟩ := hrep
  simp only [analyzeColumn]
  rw [countP_isSome_add_isNone]
  exact hrect c hc

/-- Witness for C2 on a concrete one-column sheet with two rows. -/
theorem claim_nonNull_add_null_eq_nrows_witness :
    (analyzeColumn 2 ⟨"A", true, [some "1", none]⟩).nonNull +
      (analyzeColumn 2 ⟨"A", true, [some "1", none]⟩).nulls = 2 :=
  claim_nonNull_add_null_eq_nrows ⟨"S", 2, [⟨"A", true, [some "1", none]⟩]⟩
    (by decide) _ (by simp [analyzeSheet])

/-- C5: a column all of whose cells are null appears in the sheet's
empty-columns list, its detailed sample/pattern/coercion analysis is
skipped (`details = none`), and its reported null count is the full
column length. -/
theorem claim_empty_column (sh : Sheet) (c : Column) (hc : c ∈ sh.cols)
    (hnull : ∀ x ∈ c.cells, x = none) :
    c.name ∈ (analyzeSheet sh).emptyCols ∧
      (analyzeColumn sh.nrows c).details = none ∧
      (analyzeColumn sh.nrows c).nulls = c.cells.length := by
  have hnnv : nonNullValues c = [] := by
    simp only [nonNullValues, List.filterMap_eq_nil_iff]
    intro x hx
    simp [hnull x hx]
  refine ⟨?_, ?_, ?_⟩
  · simp only [analyzeSheet, List.mem_map]
    refine ⟨c, List.mem_filter.2 ⟨hc, ?_⟩, rfl⟩
    simp only [List.all_eq_true]
    intro x hx
    simp [hnull x hx]
  · simp [analyzeColumn, hnnv]
  · simp only [analyzeColumn]
    rw [List.countP_eq_length]
    intro x hx
    simp [hnull x hx]

/-- Witness for C5 on a concrete sheet with one all-null column. -/
theorem claim_empty_column_witness :
    "E" ∈ (analyzeSheet ⟨"S", 2, [⟨"E", false, [none, none]⟩]⟩).emptyCols ∧
      (analyzeColumn 2 ⟨"E", false, [none, none]⟩).details = none ∧
      (analyzeColumn 2 ⟨"E", false, [none, none]⟩).nulls = 2 :=
  claim_empty_column ⟨"S", 2, [⟨"E", false, [none, none]⟩]⟩
    ⟨"E", false, [none, none]⟩ (by decide) (by decide)

/-- C6: a column name occurring more than once in a sheet's column list
appears exactly once in the duplicate-column-names report. -/
theorem claim_duplicate_names_once (sh : Sheet) (n : String)
    (hdup : 1 < (sh.cols.map Column.name).count n) :
    ((analyzeSheet sh).duplicateCols).count n = 1 := by
  simp only [analyzeSheet]
  refine count_uniqueInOrder_of_mem (List.mem_filter.2 ⟨?_, ?_⟩)
  · exact List.count_pos_iff.1 (Nat.lt_of_lt_of_le Nat.zero_lt_one (Nat.le_of_lt hdup))
  · simpa using hdup

/-- Witness for C6: two columns named `Amount`. -/
theorem claim_duplicate_names_once_witness :
    ((analyzeSheet ⟨"S", 0, [⟨"Amount", false, []⟩, ⟨"Amount", false, []⟩]⟩).duplicateCols).count
      "Amount" = 1 :=
  claim_duplicate_names_once ⟨"S", 0, [⟨"Amount", false, []⟩, ⟨"Amount", false, []⟩]⟩
    "Amount" (by decide)

/-- C8: a value is counted by the whitespace check iff its string form
differs from its whitespace-trimmed form; on the column with values
`" 5"` and `"5"` the reported count is exactly 1. -/
theorem claim_whitespace_count :
    (∀ vals : List String, withSpacesCount vals = vals.countP fun v => pyStrip v ≠ v) ∧
      ∃ d, (analyzeColumn 2 ⟨"W", true, [some " 5", some "5"]⟩).details = some d ∧
        d.withSpaces = some 1 :=
  ⟨withSpacesCount_eq_countP, _, rfl, rfl⟩

/-- C3: the numeric-coercion count of a text column is the number of
non-null values whose string form, commas and double quotes removed,
parses as a number; on the column with values `"100"` and `"abc"` it
is 1. -/
theorem claim_coercion_count (nrows : Nat) (c : Column) (hobj : c.isObject = true)
    (hne : nonNullValues c ≠ []) :
    (∃ d, (analyzeColumn nrows c).details = some d ∧
        d.convertible =
          some ((nonNullValues c).countP fun v => toNumericOk (stripCQ v))) ∧
      convertibleCount ["100", "abc"] = 1 := by
  have hpos : 0 < (nonNullValues c).length := List.length_pos.2 hne
  refine ⟨?_, by decide⟩
  refine ⟨{ uniqueVals := uniqueInOrder (nonNullValues c)
            sampleVals := (uniqueInOrder (nonNullValues c)).take
              (min 5 (uniqueInOrder (nonNullValues c)).length)
            patterns := if c.isObject then patternReport (nonNullValues c) else []
            convertible :=
              if c.isObject then some (convertibleCount (nonNullValues c)) else none
            withSpaces :=
              if c.isObject then some (withSpacesCount (nonNullValues c)) else none },
          ?_, ?_⟩
  · simp [analyzeColumn, if_pos hpos]
  · simp [hobj, convertibleCount_eq_countP]

/-- Witness for C3 on the concrete column with values `"100"`, `"abc"`. -/
theorem claim_coercion_count_witness :
    (∃ d, (analyzeColumn 2 ⟨"N", true, [some "100", some "abc"]⟩).details = some d ∧
        d.convertible =
          some ((nonNullValues ⟨"N", true, [some "100", some "abc"]⟩).countP
            fun v => toNumericOk (stripCQ v))) ∧
      convertibleCount ["100", "abc"] = 1 :=
  claim_coercion_count 2 ⟨"N", true, [some "100", some "abc"]⟩ rfl (by decide)

theorem firstIdx_filter_mono (p : String → Bool) :
    ∀ (xs : List String) (a b : String), a ∈ xs.filter p → b ∈ xs.filter p →
      firstIdx (xs.filter p) a < firstIdx (xs.filter p) b →
      firstIdx xs a < firstIdx xs b := by
  intro xs
  induction xs with
  | nil => simp
  | cons y ys ih =>
    intro a b ha hb hlt
    by_cases hp : p y
    · rw [List.filter_cons_of_pos hp] at ha hb hlt
      by_cases hya : y = a
      · subst hya
        have hyb : y ≠ b := by
          rintro rfl
          simp [firstIdx] at hlt
        have h0 : firstIdx (y :: ys) y = 0 := by simp [firstIdx]
        have h1 : firstIdx (y :: ys) b = firstIdx ys b + 1 := by simp [firstIdx, hyb]
        omega
      · have hyb : y ≠ b := by
          rintro rfl
          simp [firstIdx, hya] at hlt
        have ha' : a ∈ ys.filter p := by
          rcases List.mem_cons.1 ha with h | h
          · exact absurd h.symm hya
          · exact h
        have hb' : b ∈ ys.filter p := by
          rcases List.mem_cons.1 hb with h | h
          · exact absurd h.symm hyb
          · exact h
        simp only [firstIdx, if_neg hya, if_neg hyb] at hlt ⊢
        have := ih a b ha' hb' (by omega)
        omega
    · rw [List.filter_cons_of_neg hp] at ha hb hlt
      have hya : y ≠ a := by
        rintro rfl
        exact hp (List.mem_filter.1 ha).2
      have hyb : y ≠ b := by
        rintro rfl
        exact hp (List.mem_filter.1 hb).2
      simp only [firstIdx, if_neg hya, if_neg hyb]
      have := ih a b ha hb hlt
      omega

theorem pairwise_firstIdx_uniqueInOrder (l : List String) :
    List.Pairwise (fun a b => firstIdx l a < firstIdx l b) (uniqueInOrder l) := by
  induction l using uniqueInOrder.induct with
  | case1 => simp [uniqueInOrder_nil]
  | case2 x xs ih =>
    rw [uniqueInOrder_cons]
    refine List.pairwise_cons.2 ⟨?_, ?_⟩
    · intro b hb
      have hbf : b ∈ xs.filter (fun y => y ≠ x) := (mem_uniqueInOrder _ _).1 hb
      have hbx : b ≠ x := by simpa using (List.mem_filter.1 hbf).2
      have h0 : firstIdx (x :: xs) x = 0 := by simp [firstIdx]
      have h1 : firstIdx (x :: xs) b = firstIdx xs b + 1 := by
        simp [firstIdx, Ne.symm hbx]
      omega
    · refine List.Pairwise.imp_of_mem ?_ ih
      intro a b ha hb hr
      have ha' := (mem_uniqueInOrder _ _).1 ha
      have hb' := (mem_uniqueInOrder _ _).1 hb
      have hax : a ≠ x := by simpa using (List.mem_filter.1 ha').2
      have hbx : b ≠ x := by simpa using (List.mem_filter.1 hb').2
      have := firstIdx_filter_mono _ xs a b ha' hb' hr
      simp only [firstIdx, if_neg (Ne.symm hax), if_neg (Ne.symm hbx)]
      omega

theorem patternReport_mem {vals : List String} {e : PatternEntry}
    (he : e ∈ patternReport vals) : 1 ≤ e.count ∧ e.examples.length ≤ 3 := by
  simp only [patternReport, List.mem_filterMap] at he
  obtain ⟨k, -, hk⟩ := he
  by_cases h : 0 < patternCount k vals
  · rw [if_pos h] at hk
    cases hk
    exact ⟨h, List.length_take_le _ _⟩
  · rw [if_neg h] at hk
    cases hk

/-- C7: for a non-empty column, the distinct non-null values are
collected without duplication, completely, and in order of first
appearance; the sample list has length `min 5 (number of distinct
values)`; and every printed pattern line has a positive match count and
at most 3 examples. -/
theorem claim_samples_and_pattern_examples (nrows : Nat) (c : Column)
    (hne : nonNullValues c ≠ []) :
    ∃ d, (analyzeColumn nrows c).details = some d ∧
      d.sampleVals.length = min 5 d.uniqueVals.length ∧
      (∀ x, x ∈ d.uniqueVals ↔ x ∈ nonNullValues c) ∧
      d.uniqueVals.Nodup ∧
      List.Pairwise
        (fun a b => firstIdx (nonNullValues c) a < firstIdx (nonNullValues c) b)
        d.uniqueVals ∧
      ∀ e ∈ d.patterns, 1 ≤ e.count ∧ e.examples.length ≤ 3 := by
  have hpos : 0 < (nonNullValues c).length := List.length_pos.2 hne
  refine ⟨{ uniqueVals := uniqueInOrder (nonNullValues c)
            sampleVals := (uniqueInOrder (nonNullValues c)).take
              (min 5 (uniqueInOrder (nonNullValues c)).length)
            patterns := if c.isObject then patternReport (nonNullValues c) else []
            convertible :=
              if c.isObject then some (convertibleCount (nonNullValues c)) else none
            withSpaces :=
              if c.isObject then some (withSpacesCount (nonNullValues c)) else none },
          ?_, ?_, ?_, ?_, ?_, ?_⟩
  · simp [analyzeColumn, if_pos hpos]
  · simp only [List.length_take]
    omega
  · exact mem_uniqueInOrder _
  · exact nodup_uniqueInOrder _
  · exact pairwise_firstIdx_uniqueInOrder _
  · intro e he
    by_cases hobj : c.isObject
    · rw [if_pos hobj] at he
      exact patternReport_mem he
    · rw [if_neg hobj] at he
      cases he

/-- Witness for C7 on a concrete two-value text column. -/
theorem claim_samples_and_pattern_examples_witness :
    ∃ d, (analyzeColumn 2 ⟨"V", true, [some "a", some "a"]⟩).details = some d ∧
      d.sampleVals.length = min 5 d.uniqueVals.length ∧
      (∀ x, x ∈ d.uniqueVals ↔ x ∈ nonNullValues ⟨"V", true, [some "a", some "a"]⟩) ∧
      d.uniqueVals.Nodup ∧
      List.Pairwise
        (fun a b => firstIdx (nonNullValues ⟨"V", true, [some "a", some "a"]⟩) a <
          firstIdx (nonNullValues ⟨"V", true, [some "a", some "a"]⟩) b)
        d.uniqueVals ∧
      ∀ e ∈ d.patterns, 1 ≤ e.count ∧ e.examples.length ≤ 3 :=
  claim_samples_and_pattern_examples 2 ⟨"V", true, [some "a", some "a"]⟩ (by decide)

/-- C9: an individual value the numeric heuristic cannot coerce is
silently excluded from the convertible count and the rest of the column
is still profiled, while a workbook-open or sheet-read failure
propagates to the caller unhandled. -/
theorem claim_error_handling :
    (∀ (e : String) (rest : List (Except String Sheet)),
        analyzeSheets (.error e :: rest) = .error e) ∧
      (∀ e : String, analyzeExcelFile (.error e) = .error e) ∧
      (∀ (v : String) (vs : List String), toNumericOk (stripCQ v) = false →
        convertibleCount (v :: vs) = convertibleCount vs) ∧
      (∀ sheets : List Sheet,
        analyzeSheets (sheets.map .ok) = .ok (sheets.map analyzeSheet)) := by
  refine ⟨fun e rest => rfl, fun e => rfl, ?_, ?_⟩
  · intro v vs hv
    simp [convertibleCount, hv]
  · intro sheets
    induction sheets with
    | nil => rfl
    | cons s rest ih => simp [analyzeSheets, ih, Except.map]

/-- Witness for C9: the value `"abc"` is not coercible and is excluded
from the convertible count; a failed workbook open propagates. -/
theorem claim_error_handling_witness :
    analyzeExcelFile (.error "open failed") = .error "open failed" ∧
      convertibleCount ["abc", "100"] = convertibleCount ["100"] :=
  ⟨claim_error_handling.2.1 "open failed",
    claim_error_handling.2.2.1 "abc" ["100"] (by decide)⟩

/-! ## Lemmas about the regex matcher -/

theorem consumeCls_suffix {cls : Char → Bool} :
    ∀ {n : Nat} {t r : List Char}, consumeCls cls n t = some r → r <:+ t := by
  intro n
  induction n with
  | zero =>
    intro t r h
    simp only [consumeCls, Option.some.injEq] at h
    exact h ▸ List.suffix_refl r
  | succ n ih =>
    intro t r h
    cases t with
    | nil => simp [consumeCls] at h
    | cons c t' =>
      simp only [consumeCls] at h
      by_cases hc : cls c
      · rw [if_pos hc] at h
        exact (ih h).trans (List.suffix_cons c t')
      · rw [if_neg hc] at h
        cases h

theorem consumeCls_decomp {cls : Char → Bool} :
    ∀ {n : Nat} {t r : List Char}, consumeCls cls n t = some r →
      ∃ pre, t = pre ++ r ∧ pre.length = n ∧ ∀ c ∈ pre, cls c = true := by
  intro n
  induction n with
  | zero =>
    intro t r h
    simp only [consumeCls, Option.some.injEq] at h
    exact ⟨[], by simp [h]⟩
  | succ n ih =>
    intro t r h
    cases t with
    | nil => simp [consumeCls] at h
    | cons c t' =>
      simp only [consumeCls] at h
      by_cases hc : cls c
      · rw [if_pos hc] at h
        obtain ⟨pre, rfl, hlen, hall⟩ := ih h
        refine ⟨c :: pre, rfl, by simp [hlen], ?_⟩
        intro x hx
        rcases List.mem_cons.1 hx with rfl | hx
        · exact hc
        · exact hall x hx
      · rw [if_neg hc] at h
        cases h

theorem matchSeqFrom_cons {e : PatElem} {es : List PatElem} {t : List Char} :
    matchSeqFrom (e :: es) t = true ↔
      ∃ n r, e.lo ≤ n ∧ n ≤ maxReps e.hi t.length ∧
        consumeCls e.cls n t = some r ∧ matchSeqFrom es r = true := by
  simp only [matchSeqFrom, List.any_eq_true, elemRemainders, List.mem_filterMap,
    List.mem_range]
  constructor
  · rintro ⟨r, ⟨n, hn, hcond⟩, hm⟩
    by_cases hlo : e.lo ≤ n
    · rw [if_pos hlo] at hcond
      exact ⟨n, r, hlo, by omega, hcond, hm⟩
    · rw [if_neg hlo] at hcond
      cases hcond
  · rintro ⟨n, r, hlo, hmax, hcons, hm⟩
    refine ⟨r, ⟨n, by omega, ?_⟩, hm⟩
    rw [if_pos hlo]
    exact hcons

theorem reSearch_iff {p : List PatElem} {s : List Char} :
    reSearch p s = true ↔ ∃ t, t <:+ s ∧ matchSeqFrom p t = true := by
  simp only [reSearch, List.any_eq_true, List.mem_tails]

/-- A hit of the currency regex is a `$` followed by a hit of the
number-with-commas regex starting one character later. -/
theorem currency_search_decomp {s : List Char}
    (h : reSearch currencyElems s = true) :
    ∃ r, ('$' :: r) <:+ s ∧ matchSeqFrom numCommasElems r = true := by
  obtain ⟨t, hts, hm⟩ := reSearch_iff.1 h
  rw [show currencyElems = ⟨isDollarCh, 1, some 1⟩ :: numCommasElems from rfl,
    matchSeqFrom_cons] at hm
  obtain ⟨n, r, hlo, hmax, hcons, hm'⟩ := hm
  have hn : n = 1 := by
    have h1 : (1 : Nat) ≤ n := hlo
    have h2 : n ≤ min 1 t.length := hmax
    omega
  subst hn
  obtain ⟨pre, hpre, hlen, hall⟩ := consumeCls_decomp hcons
  cases pre with
  | nil => simp at hlen
  | cons c pre' =>
    cases pre' with
    | cons _ _ => simp at hlen
    | nil =>
      have hc : c = '$' := by
        have := hall c (List.mem_cons_self c [])
        simpa [isDollarCh] using this
      subst hc
      subst hpre
      exact ⟨r, hts, hm'⟩

/-- C10: every value the currency pattern matches, the number-with-commas
pattern also matches, so the currency match count never exceeds the
number-with-commas match count. -/
theorem claim_currency_le_numCommas :
    (∀ s : String, patMatches .currency s = true → patMatches .numCommas s = true) ∧
      ∀ vals : List String,
        patternCount .currency vals ≤ patternCount .numCommas vals := by
  have himp : ∀ s : String,
      patMatches .currency s = true → patMatches .numCommas s = true := by
    intro s h
    obtain ⟨r, hsuf, hm⟩ := currency_search_decomp (by simpa [patMatches] using h)
    have hr : r <:+ s.data := (List.suffix_cons '$' r).trans hsuf
    simpa [patMatches] using reSearch_iff.2 ⟨r, hr, hm⟩
  refine ⟨himp, fun vals => ?_⟩
  simp only [patternCount, ← List.countP_eq_length_filter]
  exact List.countP_mono_left fun v _ hv => himp v hv

/-- Witness for C10 on the value `"$5"`. -/
theorem claim_currency_le_numCommas_witness :
    patMatches .numCommas "$5" = true ∧
      patternCount .currency ["$5"] ≤ patternCount .numCommas ["$5"] :=
  ⟨claim_currency_le_numCommas.1 "$5" (by decide),
    claim_currency_le_numCommas.2 ["$5"]⟩

theorem consumeCls_one {cls : Char → Bool} {t r : List Char}
    (h : consumeCls cls 1 t = some r) : ∃ c, t = c :: r ∧ cls c = true := by
  obtain ⟨pre, hpre, hlen, hall⟩ := consumeCls_decomp h
  cases pre with
  | nil => simp at hlen
  | cons c pre' =>
    cases pre' with
    | cons _ _ => simp at hlen
    | nil => exact ⟨c, by simpa using hpre, hall c (by simp)⟩

theorem exists_last_of_ne_nil {l : List Char} (h : l ≠ []) :
    ∃ l₀ d, l = l₀ ++ [d] ∧ d ∈ l :=
  ⟨l.dropLast, l.getLast h, (List.dropLast_append_getLast h).symm, List.getLast_mem h⟩

theorem containsDollarNum_cons (a : Char) {l : List Char}
    (h : containsDollarNum l = true) : containsDollarNum (a :: l) = true := by
  cases l with
  | nil => simp [containsDollarNum] at h
  | cons b rest => simp [containsDollarNum, h]

theorem containsDollarNum_of_suffix {s r : List Char} {c : Char}
    (hc : isDigitCommaCh c = true) (hsuf : ('$' :: c :: r) <:+ s) :
    containsDollarNum s = true := by
  obtain ⟨pre, rfl⟩ := hsuf
  induction pre with
  | nil => simp [containsDollarNum, hc]
  | cons a pre ih => exact containsDollarNum_cons a ih

theorem percentAfterNum_cons (a : Char) {l : List Char}
    (h : percentAfterNum l = true) : percentAfterNum (a :: l) = true := by
  cases l with
  | nil => simp [percentAfterNum] at h
  | cons b rest => simp [percentAfterNum, h]

theorem percentAfterNum_of_digit_percent {s r : List Char} {d : Char}
    (hd : isDigitCh d = true) (hsuf : (d :: '%' :: r) <:+ s) :
    percentAfterNum s = true := by
  obtain ⟨pre, rfl⟩ := hsuf
  induction pre with
  | nil => simp [percentAfterNum, hd]
  | cons a pre ih => exact percentAfterNum_cons a ih

theorem percentAfterNum_of_digit_dot_percent {s r : List Char} {d : Char}
    (hd : isDigitCh d = true) (hsuf : (d :: '.' :: '%' :: r) <:+ s) :
    percentAfterNum s = true := by
  obtain ⟨pre, rfl⟩ := hsuf
  induction pre with
  | nil => simp [percentAfterNum, hd]
  | cons a pre ih => exact percentAfterNum_cons a ih

/-- The first character of a number-with-commas hit is a digit or a
comma. -/
theorem numCommas_match_head {r : List Char}
    (h : matchSeqFrom numCommasElems r = true) :
    ∃ c r', r = c :: r' ∧ isDigitCommaCh c = true := by
  rw [show numCommasElems =
        (⟨isDigitCommaCh, 1, none⟩ : PatElem) ::
          [⟨isDotCh, 0, some 1⟩, ⟨isDigitCh, 0, none⟩] from rfl,
    matchSeqFrom_cons] at h
  obtain ⟨n, r1, hlo, -, hcons, -⟩ := h
  have h1 : (1 : Nat) ≤ n := hlo
  obtain ⟨pre, hpre, hlen, hall⟩ := consumeCls_decomp hcons
  cases pre with
  | nil => simp at hlen; omega
  | cons c pre' =>
    exact ⟨c, pre' ++ r1, by simpa using hpre, hall c (by simp)⟩

/-- A percentage-regex hit puts in the string a `%` immediately preceded
by a digit, or by a `.` immediately preceded by a digit. -/
theorem percent_search_decomp {s : List Char}
    (h : reSearch percentElems s = true) : percentAfterNum s = true := by
  obtain ⟨t, hts, hm⟩ := reSearch_iff.1 h
  rw [show percentElems =
        (⟨isDigitCh, 1, none⟩ : PatElem) :: (⟨isDotCh, 0, some 1⟩ : PatElem) ::
          (⟨isDigitCh, 0, none⟩ : PatElem) :: [⟨isPercentCh, 1, some 1⟩] from rfl,
    matchSeqFrom_cons] at hm
  obtain ⟨n1, r1, hlo1, -, hcons1, hm⟩ := hm
  rw [matchSeqFrom_cons] at hm
  obtain ⟨n2, r2, -, hmax2, hcons2, hm⟩ := hm
  rw [matchSeqFrom_cons] at hm
  obtain ⟨n3, r3, -, -, hcons3, hm⟩ := hm
  rw [matchSeqFrom_cons] at hm
  obtain ⟨n4, r4, hlo4, hmax4, hcons4, -⟩ := hm
  have hn4 : n4 = 1 := by
    have a : (1 : Nat) ≤ n4 := hlo4
    have b : n4 ≤ min 1 r3.length := hmax4
    omega
  subst hn4
  obtain ⟨cp, hr3, hcp⟩ := consumeCls_one hcons4
  have hcp' : cp = '%' := by simpa [isPercentCh] using hcp
  subst hcp'
  obtain ⟨A, hA, hAlen, hAall⟩ := consumeCls_decomp hcons1
  obtain ⟨B, hB, hBlen, hBall⟩ := consumeCls_decomp hcons2
  obtain ⟨C, hC, hClen, hCall⟩ := consumeCls_decomp hcons3
  have h1 : (1 : Nat) ≤ n1 := hlo1
  have hn2 : n2 ≤ 1 := by
    have b : n2 ≤ min 1 r1.length := hmax2
    omega
  by_cases hCnil : C = []
  · subst hCnil
    simp only [List.nil_append] at hC
    subst hC
    cases B with
    | nil =>
      simp only [List.nil_append] at hB
      subst hB
      have hAne : A ≠ [] := by
        intro hA0
        rw [hA0] at hAlen
        simp at hAlen
        omega
      obtain ⟨A₀, d, hAeq, hdmem⟩ := exists_last_of_ne_nil hAne
      have hd : isDigitCh d = true := hAall d hdmem
      have hsuf : (d :: '%' :: r4) <:+ t := by
        rw [hA, hAeq, hr3]
        exact ⟨A₀, by simp⟩
      exact percentAfterNum_of_digit_percent hd (hsuf.trans hts)
    | cons b0 B' =>
      have hb0 : b0 = '.' := by
        have := hBall b0 (by simp)
        simpa [isDotCh] using this
      subst hb0
      have hB' : B' = [] := by
        have : B'.length = 0 := by
          simp only [List.length_cons] at hBlen
          omega
        exact List.length_eq_zero.1 this
      subst hB'
      simp only [List.singleton_append] at hB
      subst hB
      have hAne : A ≠ [] := by
        intro hA0
        rw [hA0] at hAlen
        simp at hAlen
        omega
      obtain ⟨A₀, d, hAeq, hdmem⟩ := exists_last_of_ne_nil hAne
      have hd : isDigitCh d = true := hAall d hdmem
      have hsuf : (d :: '.' :: '%' :: r4) <:+ t := by
        rw [hA, hAeq, hr3]
        exact ⟨A₀, by simp⟩
      exact percentAfterNum_of_digit_dot_percent hd (hsuf.trans hts)
  · obtain ⟨C₀, d, hCeq, hdmem⟩ := exists_last_of_ne_nil hCnil
    have hd : isDigitCh d = true := hCall d hdmem
    have hsufr2 : (d :: '%' :: r4) <:+ r2 := by
      rw [hC, hCeq, hr3]
      exact ⟨C₀, by simp⟩
    have hsufr1 : r2 <:+ r1 := by
      rw [hB]
      exact ⟨B, rfl⟩
    have hsuft : r1 <:+ t := by
      rw [hA]
      exact ⟨A, rfl⟩
    exact percentAfterNum_of_digit_percent hd
      (((hsufr2.trans hsufr1).trans hsuft).trans hts)

/-- A date-like-regex hit exhibits a substring of the date shape. -/
theorem dateLike_search_decomp {s : List Char}
    (h : reSearch dateElems s = true) :
    ∃ pre mid post, s = pre ++ mid ++ post ∧ DateShape mid := by
  obtain ⟨t, hts, hm⟩ := reSearch_iff.1 h
  rw [show dateElems =
        (⟨isDigitCh, 1, some 2⟩ : PatElem) :: (⟨isSepCh, 1, some 1⟩ : PatElem) ::
          (⟨isDigitCh, 1, some 2⟩ : PatElem) :: (⟨isSepCh, 1, some 1⟩ : PatElem) ::
          [⟨isDigitCh, 2, some 4⟩] from rfl,
    matchSeqFrom_cons] at hm
  obtain ⟨n1, r1, hlo1, hmax1, hcons1, hm⟩ := hm
  rw [matchSeqFrom_cons] at hm
  obtain ⟨n2, r2, hlo2, hmax2, hcons2, hm⟩ := hm
  rw [matchSeqFrom_cons] at hm
  obtain ⟨n3, r3, hlo3, hmax3, hcons3, hm⟩ := hm
  rw [matchSeqFrom_cons] at hm
  obtain ⟨n4, r4, hlo4, hmax4, hcons4, hm⟩ := hm
  rw [matchSeqFrom_cons] at hm
  obtain ⟨n5, r5, hlo5, hmax5, hcons5, -⟩ := hm
  have hn2 : n2 = 1 := by
    have a : (1 : Nat) ≤ n2 := hlo2
    have b : n2 ≤ min 1 r1.length := hmax2
    omega
  have hn4 : n4 = 1 := by
    have a : (1 : Nat) ≤ n4 := hlo4
    have b : n4 ≤ min 1 r3.length := hmax4
    omega
  subst hn2
  subst hn4
  obtain ⟨D1, hD1, hD1len, hD1all⟩ := consumeCls_decomp hcons1
  obtain ⟨s1, hr1, hs1⟩ := consumeCls_one hcons2
  obtain ⟨D2, hD2, hD2len, hD2all⟩ := consumeCls_decomp hcons3
  obtain ⟨s2, hr3, hs2⟩ := consumeCls_one hcons4
  obtain ⟨D3, hD3, hD3len, hD3all⟩ := consumeCls_decomp hcons5
  obtain ⟨pre0, hpre0⟩ := hts
  refine ⟨pre0, D1 ++ s1 :: D2 ++ s2 :: D3, r5, ?_,
    D1, D2, D3, s1, s2, rfl, hD1all, ?_, ?_, hs1, hD2all, ?_, ?_, hs2,
    hD3all, ?_, ?_⟩
  · rw [← hpre0, hD1, hr1, hD2, hr3, hD3]
    simp
  · rw [hD1len]
    exact hlo1
  · rw [hD1len]
    have : n1 ≤ min 2 t.length := hmax1
    omega
  · rw [hD2len]
    exact hlo3
  · rw [hD2len]
    have : n3 ≤ min 2 r2.length := hmax3
    omega
  · rw [hD3len]
    exact hlo5
  · rw [hD3len]
    have : n5 ≤ min 4 r4.length := hmax5
    omega

/-- C4 (amended): `str.contains` uses search semantics, so a value is
counted under the currency pattern only if it contains a `$` immediately
followed by a digit or comma (not necessarily leading), under the
percentage pattern only if it contains a `%` immediately preceded by a
digit or by a digit-then-`.` (not necessarily trailing), and under the
date-like pattern only if it contains a substring of the shape 1-2
digits, separator, 1-2 digits, separator, 2-4 digits (the value itself
need not be of that shape). -/
theorem claim_pattern_membership_shapes (s : String) :
    (patMatches .currency s = true → containsDollarNum s.data = true) ∧
      (patMatches .percentage s = true → percentAfterNum s.data = true) ∧
      (patMatches .dateLike s = true →
        ∃ pre mid post, s.data = pre ++ mid ++ post ∧ DateShape mid) := by
  refine ⟨fun h => ?_, fun h => ?_, fun h => ?_⟩
  · obtain ⟨r, hsuf, hm⟩ := currency_search_decomp (by simpa [patMatches] using h)
    obtain ⟨c, r', rfl, hc⟩ := numCommas_match_head hm
    exact containsDollarNum_of_suffix hc hsuf
  · exact percent_search_decomp (by simpa [patMatches] using h)
  · exact dateLike_search_decomp (by simpa [patMatches] using h)

/-- C4 as stated is false: `"x$5"` is counted under the currency pattern
without a leading `$`, `"5%x"` is counted under the percentage pattern
without a trailing `%`, and `"a1/2/2020"` is counted under the date-like
pattern although the value is not itself of the date shape. -/
theorem claim_pattern_membership_shapes_counterexample :
    (patternCount .currency ["x$5"] = 1 ∧
        ("x$5" : String).data.head? ≠ some '$') ∧
      (patternCount .percentage ["5%x"] = 1 ∧
        ("5%x" : String).data.getLast? ≠ some '%') ∧
      (patternCount .dateLike ["a1/2/2020"] = 1 ∧
        matchSeqExact dateElems ("a1/2/2020" : String).data = false) := by
  decide

/-- Witness for the amended C4 on a value matched by all three
patterns. -/
theorem claim_pattern_membership_shapes_witness :
    containsDollarNum ("$1 5% 1/2/2020" : String).data = true ∧
      percentAfterNum ("$1 5% 1/2/2020" : String).data = true ∧
      ∃ pre mid post, ("$1 5% 1/2/2020" : String).data = pre ++ mid ++ post ∧
        DateShape mid :=
  ⟨(claim_pattern_membership_shapes _).1 (by decide),
    (claim_pattern_membership_shapes _).2.1 (by decide),
    (claim_pattern_membership_shapes _).2.2 (by decide)⟩

/-! ## The numeric parser only accepts numeric token characters -/

theorem dropSign_decomp (l : List Char) :
    ∃ pre, l = pre ++ dropSign l ∧ ∀ c ∈ pre, c = '+' ∨ c = '-' := by
  cases l with
  | nil => exact ⟨[], rfl, by simp⟩
  | cons c r =>
    by_cases hc : c = '+' || c = '-'
    · refine ⟨[c], by simp [dropSign, hc], ?_⟩
      intro x hx
      simp only [List.mem_singleton] at hx
      subst hx
      simpa using hc
    · exact ⟨[], by simp [dropSign, hc], by simp⟩

theorem splitDigits_decomp (x : List Char) :
    ∃ d t, splitDigits x = (d, t) ∧ x = d ++ t ∧ ∀ c ∈ d, isDigitCh c = true :=
  ⟨_, _, rfl, (List.takeWhile_append_dropWhile _ _).symm,
    fun _ hc => List.mem_takeWhile_imp hc⟩

theorem parseMantissa_decomp {l r : List Char} (h : parseMantissa l = some r) :
    ∃ m, l = m ++ r ∧ ∀ c ∈ m, isDigitCh c = true ∨ c = '.' := by
  obtain ⟨d1, t1, hsd1, hl, hd1⟩ := splitDigits_decomp l
  have h1f : (splitDigits l).1 = d1 := by rw [hsd1]
  have h1s : (splitDigits l).2 = t1 := by rw [hsd1]
  simp only [parseMantissa, h1f, h1s] at h
  split at h
  case _ x tl =>
    obtain ⟨d2, t2, hsd2, hr2, hd2⟩ := splitDigits_decomp tl
    have h2f : (splitDigits tl).1 = d2 := by rw [hsd2]
    have h2s : (splitDigits tl).2 = t2 := by rw [hsd2]
    rw [h2f, h2s] at h
    split at h
    · cases h
    · simp only [Option.some.injEq] at h
      subst h
      refine ⟨d1 ++ '.' :: d2, ?_, ?_⟩
      · rw [hl, hr2]
        simp
      · intro c hc
        rcases List.mem_append.1 hc with hc | hc
        · exact .inl (hd1 c hc)
        · rcases List.mem_cons.1 hc with rfl | hc
          · exact .inr rfl
          · exact .inl (hd2 c hc)
  case _ =>
    split at h
    · cases h
    · simp only [Option.some.injEq] at h
      subst h
      exact ⟨d1, hl, fun c hc => .inl (hd1 c hc)⟩

theorem parseExp_decomp {l r : List Char} (h : parseExp l = some r) :
    ∃ m, l = m ++ r ∧
      ∀ c ∈ m, c = 'e' ∨ c = 'E' ∨ c = '+' ∨ c = '-' ∨ isDigitCh c = true := by
  cases l with
  | nil =>
    simp only [parseExp, Option.some.injEq] at h
    exact ⟨[], by simp [← h], by simp⟩
  | cons c rest =>
    simp only [parseExp] at h
    by_cases hc : c = 'e' || c = 'E'
    · rw [if_pos hc] at h
      obtain ⟨dq, tq, hsq, hq, hqall⟩ := splitDigits_decomp (dropSign rest)
      have hqf : (splitDigits (dropSign rest)).1 = dq := by rw [hsq]
      have hqs : (splitDigits (dropSign rest)).2 = tq := by rw [hsq]
      rw [hqf, hqs] at h
      split at h
      · cases h
      · simp only [Option.some.injEq] at h
        subst h
        obtain ⟨sp, hsp, hspall⟩ := dropSign_decomp rest
        refine ⟨c :: sp ++ dq, ?_, ?_⟩
        · have step1 : (c :: rest : List Char) = c :: (sp ++ dropSign rest) :=
            congrArg (c :: ·) hsp
          rw [step1, hq]
          simp
        · intro x hx
          rcases List.mem_cons.1 hx with rfl | hx
          · rcases (by simpa using hc : x = 'e' ∨ x = 'E') with rfl | rfl
            · exact .inl rfl
            · exact .inr (.inl rfl)
          · rcases List.mem_append.1 hx with hx | hx
            · rcases hspall x hx with rfl | rfl
              · exact .inr (.inr (.inl rfl))
              · exact .inr (.inr (.inr (.inl rfl)))
            · exact .inr (.inr (.inr (.inr (hqall x hx))))
    · rw [if_neg hc] at h
      simp only [Option.some.injEq] at h
      exact ⟨[], by simp [← h], by simp⟩

theorem toNumericOk_chars {s : String} (h : toNumericOk s = true) :
    ∀ c ∈ s.data, isNumTokenCh c = true := by
  cases hm : parseMantissa (dropSign (s.data.dropWhile isSpaceCh)) with
  | none => simp [toNumericOk, hm] at h
  | some r =>
    cases he : parseExp r with
    | none => simp [toNumericOk, hm, he] at h
    | some r2 =>
      have h : (r2.dropWhile isSpaceCh).isEmpty = true := by
        simpa [toNumericOk, hm, he] using h
      have htrail : ∀ c ∈ r2, isSpaceCh c = true :=
        List.dropWhile_eq_nil_iff.1 (List.isEmpty_iff.1 h)
      obtain ⟨sp, hsp, hspall⟩ := dropSign_decomp (s.data.dropWhile isSpaceCh)
      obtain ⟨m1, hm1, hm1all⟩ := parseMantissa_decomp hm
      obtain ⟨m2, hm2, hm2all⟩ := parseExp_decomp he
      intro c hc
      rw [← List.takeWhile_append_dropWhile isSpaceCh s.data] at hc
      rcases List.mem_append.1 hc with hc | hc
      · have := List.mem_takeWhile_imp hc
        simp [isNumTokenCh, this]
      · rw [hsp] at hc
        rcases List.mem_append.1 hc with hc | hc
        · rcases hspall c hc with rfl | rfl <;> simp [isNumTokenCh]
        · rw [hm1] at hc
          rcases List.mem_append.1 hc with hc | hc
          · rcases hm1all c hc with hd | rfl
            · simp [isNumTokenCh, hd]
            · simp [isNumTokenCh]
          · rw [hm2] at hc
            rcases List.mem_append.1 hc with hc | hc
            · rcases hm2all c hc with rfl | rfl | rfl | rfl | hd <;>
                simp [isNumTokenCh, *]
            · have := htrail c hc
              simp [isNumTokenCh, this]

theorem toNumericOk_false_of_dollar_mem {s : String} (h : '$' ∈ s.data) :
    toNumericOk s = false := by
  cases htn : toNumericOk s
  · rfl
  · exact absurd (toNumericOk_chars htn '$' h) (by decide)

theorem dollar_mem_of_currency_match {s : String}
    (h : patMatches .currency s = true) : '$' ∈ s.data := by
  obtain ⟨r, hsuf, -⟩ := currency_search_decomp (by simpa [patMatches] using h)
  exact hsuf.subset (by simp)

theorem mem_stripCQ {s : String} (h : '$' ∈ s.data) : '$' ∈ (stripCQ s).data := by
  have hdata : (stripCQ s).data = s.data.filter fun c => !(c = ',' || c = '"') := rfl
  rw [hdata]
  exact List.mem_filter.2 ⟨h, by decide⟩

/-- C1: a text column containing `"$1,234.56"` reports a currency match
count of at least 1; that value contributes 0 to the numeric-coercion
count because the stripping step removes only commas and double quotes,
never `$`; and in general no value the currency pattern matches is ever
counted as a number stored as text. -/
theorem claim_currency_never_number_as_text (nrows : Nat) (c : Column)
    (hobj : c.isObject = true) (hmem : "$1,234.56" ∈ nonNullValues c) :
    (∃ d, (analyzeColumn nrows c).details = some d ∧
        ∃ en ∈ d.patterns, en.kind = .currency ∧ 1 ≤ en.count) ∧
      toNumericOk (stripCQ "$1,234.56") = false ∧
      (∀ s : String, '$' ∈ s.data → '$' ∈ (stripCQ s).data) ∧
      (∀ s : String, patMatches .currency s = true →
        toNumericOk (stripCQ s) = false) := by
  have hgen : ∀ s : String, patMatches .currency s = true →
      toNumericOk (stripCQ s) = false := fun s hs =>
    toNumericOk_false_of_dollar_mem (mem_stripCQ (dollar_mem_of_currency_match hs))
  have hpos : 0 < (nonNullValues c).length :=
    List.length_pos.2 (List.ne_nil_of_mem hmem)
  refine ⟨?_, hgen "$1,234.56" (by decide), fun s => mem_stripCQ, hgen⟩
  refine ⟨{ uniqueVals := uniqueInOrder (nonNullValues c)
            sampleVals := (uniqueInOrder (nonNullValues c)).take
              (min 5 (uniqueInOrder (nonNullValues c)).length)
            patterns := if c.isObject then patternReport (nonNullValues c) else []
            convertible :=
              if c.isObject then some (convertibleCount (nonNullValues c)) else none
            withSpaces :=
              if c.isObject then some (withSpacesCount (nonNullValues c)) else none },
          ?_, ?_⟩
  · simp [analyzeColumn, if_pos hpos]
  · have hcnt : 0 < patternCount .currency (nonNullValues c) := by
      have hmf : "$1,234.56" ∈ (nonNullValues c).filter (patMatches .currency) :=
        List.mem_filter.2 ⟨hmem, by decide⟩
      simpa [patternCount] using List.length_pos.2 (List.ne_nil_of_mem hmf)
    simp only [hobj, if_true]
    refine ⟨⟨.currency, patternCount .currency (nonNullValues c),
      patternExamples .currency (nonNullValues c)⟩, ?_, rfl, hcnt⟩
    simp only [patternReport, List.mem_filterMap]
    refine ⟨.currency, by simp [patternOrder], ?_⟩
    rw [if_pos hcnt]

/-- Witness for C1 on a concrete one-value currency column. -/
theorem claim_currency_never_number_as_text_witness :
    (∃ d, (analyzeColumn 1 ⟨"C", true, [some "$1,234.56"]⟩).details = some d ∧
        ∃ en ∈ d.patterns, en.kind = .currency ∧ 1 ≤ en.count) ∧
      toNumericOk (stripCQ "$1,234.56") = false ∧
      (∀ s : String, '$' ∈ s.data → '$' ∈ (stripCQ s).data) ∧
      (∀ s : String, patMatches .currency s = true →
        toNumericOk (stripCQ s) = false) :=
  claim_currency_never_number_as_text 1 ⟨"C", true, [some "$1,234.56"]⟩ rfl
    (by decide)

end AnalyzeExcel
